import Mathlib

/-!
Verification of the work_ical_invoice reconciliation engine.

The development embeds the core of the repository in Lean:
  * `approxmatch.py` — Levenshtein distance, bag-of-words scoring, best match;
  * the workfile data model shared by `workfile.py` / `ics_to_workfile.py`
    (entries, sections, date-filtered views);
  * `update_course` from `ics_to_workfile.py` (the ledger reconciliation cascade);
  * `find_section` and the invoice sum-match pass from `workfile_to_invoice.py`.

Modelling conventions:
  * Python `datetime.date` values are embedded as `Int` day numbers; a
    `timedelta(days = n)` becomes integer addition.  Only ordering and
    day arithmetic on dates are used by the code.
  * Python `decimal.Decimal` values are embedded as exact fractions
    (`Decimal` below).  `Decimal` comparisons in the source are value
    comparisons (`Decimal("1.5") == Decimal("1.50")`), embedded by the
    cross-multiplication tests `Decimal.beq` / `Decimal.blt`.
  * Python strings are embedded as `List Char`; `str.lower` and
    `str.split()` are embedded structurally so that everything computes
    by kernel reduction.
  * `collections.Counter` objects are embedded as ordered lists of
    (key, count) cells (`Cnt`): Python dicts preserve key insertion
    order, decrementing a count to zero keeps the key in the dict, and
    `Counter.elements()` walks the cells in order repeating each key by
    its count at the moment the cell is reached.
  * Fallible operations (`min` of an empty sequence, division by zero)
    return `Option` / `Except` values.
-/

namespace Wci

/-- Exact fraction embedding of `decimal.Decimal`: a numerator and a positive
denominator.  Equality of Python decimals is value equality, embedded by
`Decimal.beq`, not by structural equality of the representation. -/
structure Decimal where
  num : Int
  den : ℕ+
deriving DecidableEq

/-- Value equality of two decimals (`==` on Python `Decimal`). -/
def Decimal.beq (a b : Decimal) : Bool :=
  decide (a.num * (b.den.val : Int) = b.num * (a.den.val : Int))

/-- Value order on decimals (`<` on Python `Decimal`). -/
def Decimal.blt (a b : Decimal) : Bool :=
  decide (a.num * (b.den.val : Int) < b.num * (a.den.val : Int))

/-- Exact addition of decimals. -/
def Decimal.add (a b : Decimal) : Decimal :=
  ⟨a.num * (b.den.val : Int) + b.num * (a.den.val : Int), a.den * b.den⟩

/-- Exact subtraction of decimals. -/
def Decimal.sub (a b : Decimal) : Decimal :=
  ⟨a.num * (b.den.val : Int) - b.num * (a.den.val : Int), a.den * b.den⟩

/-- Embeds a whole-number decimal literal. -/
def Decimal.ofInt (n : Int) : Decimal := ⟨n, 1⟩

/-- Python `sum(...)` over decimals (starts from the integer 0). -/
def Decimal.dsum (l : List Decimal) : Decimal := l.foldl Decimal.add (Decimal.ofInt 0)

/-- The rational value denoted by a decimal. -/
def Decimal.val (a : Decimal) : ℚ := (a.num : ℚ) / (a.den.val : ℚ)

/-- Embeds Python `str.lower` (character-wise lowercasing). -/
def strLower (s : List Char) : List Char := s.map Char.toLower

/-- Embeds Python `str.split()` with no argument: split on runs of whitespace,
dropping empty pieces. -/
def splitWs (s : List Char) : List (List Char) :=
  (s.foldr (fun c (acc : List (List Char)) =>
    if c.isWhitespace then [] :: acc
    else match acc with
      | [] => [[c]]
      | t :: ts => (c :: t) :: ts) []).filter (· ≠ [])

/-- The token list `s.lower().split()` used by `approx_score`. -/
def tokens (s : List Char) : List (List Char) := splitWs (strLower s)

/-- Substitution cost of the source: 0 on equal characters, 2 otherwise
(`matchscore` local of `approxmatch.levenshtein`). -/
def matchscore (c1 c2 : Char) : Nat := if c1 = c2 then 0 else 2

/-- One inner loop of `approxmatch.levenshtein`: given the value `last` just
appended to the current row, the remaining characters of `s2` and the
corresponding tail of the previous row (starting at `prevrow[i2 - 1]`),
produce the rest of the current row.  Each new cell is
`min(row[-1] + 1, prevrow[i2] + 1, prevrow[i2 - 1] + matchscore)`. -/
def levRowAux (c1 : Char) : Nat → List Char → List Nat → List Nat
  | _, [], _ => []
  | _, _ :: _, [] => []
  | _, _ :: _, [_] => []
  | last, c2 :: s2, p0 :: p1 :: ps =>
      let v := min (last + 1) (min (p1 + 1) (p0 + matchscore c1 c2))
      v :: levRowAux c1 v s2 (p1 :: ps)

/-- One outer iteration of `approxmatch.levenshtein`: state is the previous
row together with the running row index `i1`. -/
def levStep (s2 : List Char) (acc : List Nat × Nat) (c1 : Char) : List Nat × Nat :=
  let i1 := acc.2 + 1
  (i1 :: levRowAux c1 i1 s2 acc.1, i1)

/-- Embeds `approxmatch.levenshtein`: the dynamic program over rows, with
insertion and deletion cost 1 and substitution cost 2; the result is the last
cell of the last row. -/
def levenshtein (s1 s2 : List Char) : Nat :=
  ((s1.foldl (levStep s2) (List.range (s2.length + 1), 0)).1).getLastD 0

/-- Recursive reference form of the same edit distance, used to reason about
the dynamic program.  `levR a b` is the distance between the reversals of the
two strings consumed so far by the row computation. -/
def levR : List Char → List Char → Nat
  | [], l2 => l2.length
  | l1, [] => l1.length
  | c1 :: l1, c2 :: l2 =>
      min (levR (c1 :: l1) l2 + 1)
        (min (levR l1 (c2 :: l2) + 1) (levR l1 l2 + matchscore c1 c2))
termination_by l1 l2 => l1.length + l2.length
decreasing_by all_goals (simp only [List.length_cons]; omega)

/-- The row of distances described by the dynamic-program invariant: entry
`k` of `rowSpec A B t2` is `levR A (reverse of the k next characters ++ B)`. -/
def rowSpec (A B : List Char) : List Char → List Nat
  | [] => [levR A B]
  | c2 :: rest => levR A B :: rowSpec A (c2 :: B) rest

/-- Python `min` over a possibly empty list of naturals: `none` embeds the
`ValueError` raised on an empty sequence. -/
def minOver : List Nat → Option Nat
  | [] => none
  | x :: xs => some (xs.foldl Nat.min x)

/-- The sum of `approx_score`: for each token of the first string, the
minimal edit distance to a token of the second string; `none` as soon as one
inner `min` fails. -/
def sumMins (ws2 : List (List Char)) : List (List Char) → Option Nat
  | [] => some 0
  | w1 :: ws =>
    match minOver (ws2.map (fun w2 => levenshtein w1 w2)), sumMins ws2 ws with
    | some m, some s => some (m + s)
    | _, _ => none

/-- Embeds `approxmatch.approx_score`: lower-case and whitespace-tokenise both
strings; for each token of the first string take the minimal edit distance to
a token of the second string and sum these minima.  The inner `min` raises on
an empty token list, embedded by `none`; an empty first token list never
forces the inner `min` and yields 0. -/
def approx_score (s1 s2 : List Char) : Option Nat :=
  sumMins (tokens s2) (tokens s1)

/-- Loop of `approxmatch.approx_match`: Python `min(haystack, key=...)` keeps
the first element whose key is strictly smaller than the current best. -/
def approx_match_go (nail : List Char) (b : List Char) (sb : Nat) :
    List (List Char) → Option (List Char)
  | [] => some b
  | x :: xs =>
    match approx_score nail x with
    | none => none
    | some sx => if sx < sb then approx_match_go nail x sx xs else approx_match_go nail b sb xs

/-- Embeds `approxmatch.approx_match`: the haystack element with minimal
`approx_score`, ties resolved to the first one in iteration order.  `none`
embeds the `ValueError` of `min` on an empty haystack and the failure of
`approx_score` on a token-less hay. -/
def approx_match (nail : List Char) : List (List Char) → Option (List Char)
  | [] => none
  | h :: t =>
    match approx_score nail h with
    | none => none
    | some sh => approx_match_go nail h sh t

/-- Embeds `WorkfileEntryFull` / `workfile.EntryFull`: a dated entry.  The
dataclass compares and hashes on `(date, hours, rate)` only; `comment` and
`prespaces` are declared with `compare=False`.  `keyEq` below is the
dataclass equality. -/
structure EntryFull where
  date : Int
  hours : Decimal
  rate : Decimal
  comment : Option (List Char) := none
  prespaces : Option Int := some 1
deriving DecidableEq

/-- The dataclass equality of `WorkfileEntryFull`: `(date, hours, rate)`
value equality, annotation fields excluded. -/
def keyEq (a b : EntryFull) : Bool :=
  decide (a.date = b.date) && Decimal.beq a.hours b.hours && Decimal.beq a.rate b.rate

/-- The dataclass order of `WorkfileEntryFull` used by `sorted`: strict
lexicographic comparison of the `(date, hours, rate)` tuples. -/
def entLt (a b : EntryFull) : Bool :=
  decide (a.date < b.date) ||
    (decide (a.date = b.date) &&
      (Decimal.blt a.hours b.hours ||
        (Decimal.beq a.hours b.hours && Decimal.blt a.rate b.rate)))

/-- Embeds the entry union: a section line is a full entry or a comment line
(`WorkfileEntryComment`). -/
inductive Entry where
  | full (e : EntryFull)
  | comm (s : List Char)
deriving DecidableEq

/-- A section is its ordered list of entries (`WorkfileSection.entries`). -/
abbrev Section := List Entry

/-- A workfile is its ordered list of sections (`Workfile.sections`). -/
abbrev Workfile := List Section

/-- Embeds `WorkfileSection._title_comment_count`: the number of leading
comment entries. -/
def titleCommentCount (es : Section) : Nat :=
  (es.takeWhile (fun e => match e with | .comm _ => true | .full _ => false)).length

/-- Embeds `WorkfileSection.title` of `ics_to_workfile.py`: the leading
comments joined by newlines, `none` when the section has no leading comment.
This variant does not strip a leading space. -/
def sectionTitle (es : Section) : Option (List Char) :=
  let n := titleCommentCount es
  if n = 0 then none
  else some (List.intercalate ['\n'] ((es.take n).filterMap
    (fun e => match e with | .comm s => some s | .full _ => none)))

/-- Embeds `workfile.Section.title` of `workfile.py`: same as `sectionTitle`
but a single leading space of the joined comment is stripped. -/
def sectionTitleW (es : Section) : Option (List Char) :=
  (sectionTitle es).map (fun c => match c with | ' ' :: r => r | _ => c)

/-- Embeds the `full_entries` property: the full entries of a section in
order. -/
def fullEntries (es : Section) : List EntryFull :=
  es.filterMap (fun e => match e with | .full f => some f | .comm _ => none)

/-- Embeds `first_date`: the minimal full-entry date, `none` on a section
with no full entry. -/
def firstDate (es : Section) : Option Int := ((fullEntries es).map (·.date)).min?

/-- Embeds `last_date`: the maximal full-entry date. -/
def lastDate (es : Section) : Option Int := ((fullEntries es).map (·.date)).max?

/-- Stable insertion used to embed Python `sorted`: an element is placed
after every element not strictly greater than it. -/
def insertSorted (x : EntryFull) : List EntryFull → List EntryFull
  | [] => [x]
  | y :: ys => if entLt x y then x :: y :: ys else y :: insertSorted x ys

/-- Embeds Python `sorted` on full entries (stable, by `(date, hours, rate)`). -/
def sortFull (l : List EntryFull) : List EntryFull :=
  l.foldl (fun acc x => insertSorted x acc) []

/-- Embeds `WorkfileSection.sort`: fails (`UnsortableError`, embedded as
`none`) when an entry after the leading comment block is itself a comment;
otherwise sorts the entries after the title block. -/
def sortSection (es : Section) : Option Section :=
  let n := titleCommentCount es
  let tl := es.drop n
  if tl.all (fun e => match e with | .full _ => true | .comm _ => false) then
    some (es.take n ++ (sortFull (tl.filterMap
      (fun e => match e with | .full f => some f | .comm _ => none))).map Entry.full)
  else none

/-- Embeds the section-acceptance test of `WorkfileFiltered.sections`: the
section is skipped when it has no dated entry, when a title filter is given
and the section title differs, or when its date span does not meet
`[start, end)`. `titleOf` is the `title` property of the module at hand. -/
def filtKeep (titleOf : Section → Option (List Char)) (title : Option (List Char))
    (start en : Int) (s : Section) : Bool :=
  match firstDate s, lastDate s with
  | some f, some l =>
    (match title with | none => true | some t => titleOf s == some t) &&
      decide (f < en) && decide (start ≤ l)
  | _, _ => false

/-- Embeds `WorkfileFiltered.sections` as the list of indices of the
accepted sections of the workfile. -/
def filteredIdxBy (titleOf : Section → Option (List Char)) (wf : Workfile)
    (title : Option (List Char)) (start en : Int) : List Nat :=
  (wf.enum.filter (fun p => filtKeep titleOf title start en p.2)).map (·.1)

/-- The filtered view used by `ics_to_workfile.update_course` (title without
space stripping). -/
def filteredIdx (wf : Workfile) (title : Option (List Char)) (start en : Int) : List Nat :=
  filteredIdxBy sectionTitle wf title start en

/-- The filtered view used by `workfile_to_invoice` (title with the leading
space stripped, as in `workfile.py`). -/
def filteredIdxW (wf : Workfile) (title : Option (List Char)) (start en : Int) : List Nat :=
  filteredIdxBy sectionTitleW wf title start en

/-- Embeds `WorkfileSectionFiltered.full_entries`: the full entries of the
section whose date lies in `[start, end)`. -/
def windowEntries (es : Section) (start en : Int) : List EntryFull :=
  (fullEntries es).filter (fun e => decide (e.date < en) && decide (start ≤ e.date))

/-- A `collections.Counter` embedded as ordered (key, count) cells.  The cell
order is the key insertion order of the Python dict; a count may be zero or
negative while the key cell remains present. -/
abbrev Cnt (α : Type) := List (α × Int)

/-- Counter lookup (`c[k]`, with the `Counter` default of 0 on a missing
key). -/
def cntLookup (beq : α → α → Bool) (c : Cnt α) (k : α) : Int :=
  match c.find? (fun p => beq k p.1) with
  | some p => p.2
  | none => 0

/-- Embeds `c[k] += 1`: the unique cell whose key compares equal is bumped,
a missing key is appended with count 1. -/
def cntInc (beq : α → α → Bool) : Cnt α → α → Cnt α
  | [], k => [(k, 1)]
  | p :: rest, k => if beq k p.1 then (p.1, p.2 + 1) :: rest else p :: cntInc beq rest k

/-- Embeds `c[k] -= 1`: the unique cell whose key compares equal is
decremented (its stored key object is kept), a missing key is appended with
count -1. -/
def cntDecr (beq : α → α → Bool) : Cnt α → α → Cnt α
  | [], k => [(k, -1)]
  | p :: rest, k => if beq k p.1 then (p.1, p.2 - 1) :: rest else p :: cntDecr beq rest k

/-- Embeds `collections.Counter(iterable)`: counts in first-occurrence key
order. -/
def counterOf (beq : α → α → Bool) (l : List α) : Cnt α := l.foldl (cntInc beq) []

/-- Embeds `Counter.__sub__` (`a - b`): keys of `a` whose count exceeds the
count in `b` survive with the positive difference.  (The second loop of the
CPython implementation, which would add keys of `b` with a negative count,
can never contribute because counts in `b` are non-negative here.) -/
def cntSub (beq : α → α → Bool) (a b : Cnt α) : Cnt α :=
  a.filterMap (fun p =>
    if p.2 - cntLookup beq b p.1 > 0 then some (p.1, p.2 - cntLookup beq b p.1) else none)

/-- Embeds `Counter.elements()`: each key of a cell repeated by its count,
cells in order; cells with a non-positive count contribute nothing. -/
def cntElements (c : Cnt α) : List α :=
  c.foldr (fun p acc => List.replicate p.2.toNat p.1 ++ acc) []

/-- Embeds `partial_entry_matches` of `ics_to_workfile.py`, which walks
`entries.elements()` once; the three result lists are equivalently the three
filters below, in element order.  First component: same date but both hours
and rate differ; second: same date and hours; third: same date and rate. -/
def entry_matches (entry : EntryFull) (entries : Cnt EntryFull) :
    List EntryFull × List EntryFull × List EntryFull :=
  let els := cntElements entries
  (els.filter (fun r => decide (r.date = entry.date) &&
      !Decimal.beq r.hours entry.hours && !Decimal.beq r.rate entry.rate),
   els.filter (fun r => decide (r.date = entry.date) && Decimal.beq r.hours entry.hours),
   els.filter (fun r => decide (r.date = entry.date) && Decimal.beq r.rate entry.rate))

/-- The mutable state of `update_course` while merging one section: the two
difference counters and the entry list of the target section (mutated in
place in the source). -/
structure MState where
  added : Cnt EntryFull
  removed : Cnt EntryFull
  entries : Section
deriving DecidableEq

/-- Applies a loop body `n` times at the counter cell of index `i`; the body
receives the key currently stored in that cell, as the Python iterator
yields the key object of the cell itself. -/
def repAt (body : EntryFull → MState → MState) (i : Nat) : Nat → MState → MState
  | 0, st => st
  | n + 1, st =>
    match st.added.get? i with
    | some p => repAt body i n (body p.1 st)
    | none => st

/-- Walks the remaining cells of the `added` counter.  When the iterator of
`Counter.elements()` reaches a cell it fixes the repetition count from the
count stored at that moment, so the body runs that many times before the
next cell is visited. -/
def passAux (body : EntryFull → MState → MState) : Nat → Nat → MState → MState
  | _, 0, st => st
  | i, n + 1, st =>
    let c := match st.added.get? i with
      | some p => p.2
      | none => 0
    passAux body (i + 1) n (repAt body i c.toNat st)

/-- One `for added_entry in added_entries.elements():` loop of
`update_course`.  No key is ever inserted or deleted during the loop, so the
cell count of the dict is fixed at loop entry. -/
def runAddedPass (body : EntryFull → MState → MState) (st : MState) : MState :=
  passAux body 0 st.added.length st

/-- Mutates `entries[entries.index(m)].hours = h`: the first entry comparing
equal to `m` gets its hours replaced, every other entry and the order are
untouched.  (`list.index` raises if no entry matches; the callers only pass
entries drawn from the section itself, so that case is unreachable and the
embedding returns the list unchanged.) -/
def setHoursFirstMatch (m : EntryFull) (h : Decimal) : Section → Section
  | [] => []
  | .comm s :: rest => .comm s :: setHoursFirstMatch m h rest
  | .full e :: rest =>
    if keyEq e m then .full { e with hours := h } :: rest
    else .full e :: setHoursFirstMatch m h rest

/-- Mutates the hours of the key object stored in the cell comparing equal
to `k` (the source mutates `added_entry.hours` while the object is a counter
key). -/
def cntSetHours : Cnt EntryFull → EntryFull → Decimal → Cnt EntryFull
  | [], _, _ => []
  | p :: rest, k, h =>
    if keyEq k p.1 then ({ p.1 with hours := h }, p.2) :: rest
    else p :: cntSetHours rest k h

/-- Embeds `list.remove(r)`: drop the first entry comparing equal to `r`
(unreachable-miss case returns the list unchanged, as for
`setHoursFirstMatch`). -/
def eraseFirstKeyEq (r : EntryFull) : Section → Section
  | [] => []
  | .comm s :: rest => .comm s :: eraseFirstKeyEq r rest
  | .full e :: rest => if keyEq e r then rest else .full e :: eraseFirstKeyEq r rest

/-- The sum-match pass body of `update_course`: when the (date, rate)
matches among the removed entries number at least two and their hours sum
exactly to the added entry's hours, all of them and the added entry are
consumed and nothing else changes. -/
def sumMatchBody (a : EntryFull) (st : MState) : MState :=
  let drm := (entry_matches a st.removed).2.2
  let tot := Decimal.dsum (drm.map (·.hours))
  if Decimal.beq tot a.hours && decide (1 < drm.length) then
    { st with
      removed := drm.foldl (cntDecr keyEq) st.removed
      added := cntDecr keyEq st.added a }
  else st

/-- The partial-fix pass body of `update_course`.  One (date, rate) match:
that entry of the section has its hours overwritten in place and both sides
are consumed.  Several matches summing below the added hours: all are
consumed and the added entry, its hours mutated to the shortfall, is
appended.  Several matches summing above: only diagnostics, no change. -/
def fixBody (a : EntryFull) (st : MState) : MState :=
  let drm := (entry_matches a st.removed).2.2
  let tot := Decimal.dsum (drm.map (·.hours))
  match drm with
  | [m] =>
    { added := cntDecr keyEq st.added a
      removed := cntDecr keyEq st.removed m
      entries := setHoursFirstMatch m a.hours st.entries }
  | _ =>
    if decide (1 < drm.length) && Decimal.blt tot a.hours then
      let rem := Decimal.sub a.hours tot
      { added := cntSetHours (cntDecr keyEq st.added a) a rem
        removed := drm.foldl (cntDecr keyEq) st.removed
        entries := st.entries ++ [.full { a with hours := rem }] }
    else st

/-- The rate-mismatch pass body of `update_course`: any (date, hours)
matches are consumed together with the added entry, nothing is fixed (the
hourly rate is not trusted from the ics side). -/
def rateMismatchBody (a : EntryFull) (st : MState) : MState :=
  let dhm := (entry_matches a st.removed).2.1
  if decide (0 < dhm.length) then
    { st with
      removed := dhm.foldl (cntDecr keyEq) st.removed
      added := cntDecr keyEq st.added a }
  else st

/-- Steps 3-6 of the cascade of `update_course`: the sum-match pass, the
partial-fix pass and the rate-mismatch pass.  The date-only pass of the
source only logs diagnostics and never changes any state, so it contributes
nothing here. -/
def cascade (st : MState) : MState :=
  runAddedPass rateMismatchBody (runAddedPass fixBody (runAddedPass sumMatchBody st))

/-- The difference state of step 2 of `update_course`, for the located
section `sec`: `added = Counter(newsec.full_entries) - Counter(current)`
and symmetrically, where `current` is the section restricted to the
narrowed window. -/
def initialState (sec newsec : Section) (wstart wend : Int) : MState :=
  let newents := counterOf keyEq (fullEntries newsec)
  let curents := counterOf keyEq (windowEntries sec wstart wend)
  { added := cntSub keyEq newents curents
    removed := cntSub keyEq curents newents
    entries := sec }

/-- Step 7 of `update_course`: append every surviving added entry, then
delete one section entry per surviving removed entry. -/
def applyRemainder (st : MState) : Section :=
  (cntElements st.removed).foldl (fun es r => eraseFirstKeyEq r es)
    (st.entries ++ (cntElements st.added).map Entry.full)

/-- The state after the cascade for the section of index `i` of the
workfile: the window is narrowed to `[icsstart, icsend)` (the max/min of
`SectionFiltered.filter` against the widened search window), the initial
diff is computed and the three passes run. -/
def cascadeOf (wf : Workfile) (newsec : Section) (icsstart icsend : Int) (i : Nat) : MState :=
  cascade (initialState ((wf.get? i).getD []) newsec (max icsstart (icsstart - 92))
    (min icsend (icsend + 92)))

/-- The merge of `update_course` once the single matching section (index
`i`) is located: run the cascade, apply the remainder, and re-sort unless
the counters are dict-empty (the final `if not added_entries and not
removed_entries` of the source tests dict emptiness: consumed keys keep a
zero-count cell).  The sort failure (`UnsortableError`) is caught, keeping
the current order. -/
def mergeSection (wf : Workfile) (newsec : Section) (icsstart icsend : Int) (i : Nat) :
    Workfile :=
  if (cascadeOf wf newsec icsstart icsend i).added.isEmpty &&
      (cascadeOf wf newsec icsstart icsend i).removed.isEmpty then wf
  else
    match sortSection (applyRemainder (cascadeOf wf newsec icsstart icsend i)) with
    | some sorted => wf.set i sorted
    | none => wf.set i (applyRemainder (cascadeOf wf newsec icsstart icsend i))

/-- Embeds `ics_to_workfile.update_course`.  The search window is widened by
92 days on each side; more than one matching section aborts the merge, no
matching section appends `newsec` as given; otherwise the located section is
merged by `mergeSection`. -/
def update_course (wf : Workfile) (newsec : Section) (icsstart icsend : Int) : Workfile :=
  if 1 < (filteredIdx wf (sectionTitle newsec) (icsstart - 92) (icsend + 92)).length then wf
  else
    match filteredIdx wf (sectionTitle newsec) (icsstart - 92) (icsend + 92) with
    | [] => wf ++ [newsec]
    | i :: _ => mergeSection wf newsec icsstart icsend i

/-- Embeds the caller-side acceptance test `score / length < 0.1` applied to
a bag score and the length of a reference string (`find_section` and
`match_items` of `workfile_to_invoice.py`).  The source divides two Python
integers exactly; the strict comparison against 0.1 is embedded by the
equivalent integer inequality `10 * score < length` (theorem `C6` below
relates it to the rational ratio).  A zero-length reference string raises
`ZeroDivisionError`, embedded by `none`. -/
def acceptScore (score slen : Nat) : Option Bool :=
  if slen = 0 then none else some (decide (10 * score < slen))

/-- Embeds `workfile_to_invoice.filter_sections`: the recent window is
`[today - 91, today + 30)`, with the `workfile.py` title property. -/
def filter_sections (wf : Workfile) (today : Int) (title : Option (List Char)) : List Nat :=
  filteredIdxW wf title (today - 91) (today + 30)

/-- Outcome of `find_section`: a section, or the label of the exception the
source raises. -/
inductive FindResult where
  | ok (sec : Section)
  | error (msg : String)
deriving DecidableEq

/-- Embeds `workfile_to_invoice.find_section`.  Exactly one exact-title
section is returned; several exact-title sections produce a warning and the
last one; with none, approximate matching runs over the titles of all
sections of the window and the match is accepted only under the 0.1
threshold, otherwise `SectionNameError` is raised.  The other error labels
embed the exceptions Python would raise on a title-less section
(`TypeError`), an empty candidate or token set (`ValueError`) and an empty
matched title (`ZeroDivisionError`). -/
def find_section (wf : Workfile) (today : Int) (title : List Char) : FindResult :=
  let idxs := filter_sections wf today (some title)
  match idxs with
  | [i] => .ok ((wf.get? i).getD [])
  | _ :: _ :: _ => .ok ((wf.get? (idxs.getLastD 0)).getD [])
  | [] =>
    let allIdx := filter_sections wf today none
    let otitles := allIdx.map (fun i => sectionTitleW ((wf.get? i).getD []))
    if otitles.any (·.isNone) then .error "TypeError"
    else
      match approx_match title (otitles.filterMap id) with
      | none => .error "ValueError"
      | some actual =>
        match approx_score title actual with
        | none => .error "ValueError"
        | some sc =>
          match acceptScore sc actual.length with
          | none => .error "ZeroDivisionError"
          | some true =>
            let l2 := filter_sections wf today (some actual)
            .ok ((wf.get? (l2.getLastD 0)).getD [])
          | some false => .error "SectionNameError"

/-- Embeds `invoice.Item`: a frozen dataclass ordered and compared on all
its fields. -/
structure Item where
  desc : List Char
  date : Int
  time : Decimal
  unit : List Char
  rate : Decimal
  vat : Decimal
deriving DecidableEq

/-- The dataclass equality of `invoice.Item`: all fields, decimals by
value. -/
def itemEq (a b : Item) : Bool :=
  a.desc == b.desc && decide (a.date = b.date) && Decimal.beq a.time b.time &&
    a.unit == b.unit && Decimal.beq a.rate b.rate && Decimal.beq a.vat b.vat

/-- Embeds `match_items(ref, items, time=False)` as used by the invoice
passes.  For `Item` with keyword arguments `desc=False, time=False`,
`partial_match_dataclass` resolves to an exact comparison of the fields
`date`, `unit`, `rate` and `vat`; the matches are then filtered by the
approximate-description test `approx_score(ref.desc, m.desc) /
len(ref.desc) < 0.1`.  A failing bag score or a zero-length reference
description raises, embedded by `none`. -/
def match_items_timeF (ref : Item) (items : List Item) : Option (List Item) :=
  let pre := items.filter (fun d => decide (ref.date = d.date) && ref.unit == d.unit &&
    Decimal.beq ref.rate d.rate && Decimal.beq ref.vat d.vat)
  pre.filterM (fun m => do
    let sc ← approx_score ref.desc m.desc
    acceptScore sc ref.desc.length)

/-- The body of the loop of `_update_invoice_ignore_sum_match`: the matches
of the added item among the removed elements are gathered with the date,
unit, rate and vat exact and the description approximate; whenever their
total time equals the added item's time, all of them and the added item are
consumed.  The state is the pair (added, removed). -/
def ignoreSumMatchBody (a : Item) (st : Cnt Item × Cnt Item) :
    Option (Cnt Item × Cnt Item) := do
  let ms ← match_items_timeF a (cntElements st.2)
  let tot := Decimal.dsum (ms.map (·.time))
  if Decimal.beq tot a.time then
    pure (cntDecr itemEq st.1 a, ms.foldl (cntDecr itemEq) st.2)
  else pure st

/-- Applies an invoice loop body `n` times at the cell of index `i` of the
added counter (same `Counter.elements()` discipline as `repAt`). -/
def repAtI (body : Item → Cnt Item × Cnt Item → Option (Cnt Item × Cnt Item)) (i : Nat) :
    Nat → Cnt Item × Cnt Item → Option (Cnt Item × Cnt Item)
  | 0, st => some st
  | n + 1, st =>
    match st.1.get? i with
    | some p => do
        let st' ← body p.1 st
        repAtI body i n st'
    | none => some st

/-- Walks the cells of the added counter for an invoice pass (same
discipline as `passAux`). -/
def passAuxI (body : Item → Cnt Item × Cnt Item → Option (Cnt Item × Cnt Item)) :
    Nat → Nat → Cnt Item × Cnt Item → Option (Cnt Item × Cnt Item)
  | _, 0, st => some st
  | i, n + 1, st =>
    let c := match st.1.get? i with
      | some p => p.2
      | none => 0
    do
      let st' ← repAtI body i c.toNat st
      passAuxI body (i + 1) n st'

/-- Embeds `workfile_to_invoice._update_invoice_ignore_sum_match`: the
sum-match pass of the invoice flavor over the (added, removed) counters. -/
def update_invoice_ignore_sum_match (added removed : Cnt Item) :
    Option (Cnt Item × Cnt Item) :=
  passAuxI ignoreSumMatchBody 0 added.length (added, removed)

/-!
Concrete instances on which the engine is evaluated below: dated entries,
sections, workfiles, invoice items and merge states.
-/

/-- One hour on day 10 at rate 80. -/
def eH1 : EntryFull := { date := 10, hours := ⟨1, 1⟩, rate := ⟨80, 1⟩ }

/-- One and a half hours on day 10 at rate 80. -/
def eH15 : EntryFull := { date := 10, hours := ⟨3, 2⟩, rate := ⟨80, 1⟩ }

/-- Two hours on day 10 at rate 80. -/
def eH2 : EntryFull := { date := 10, hours := ⟨2, 1⟩, rate := ⟨80, 1⟩ }

/-- Three hours on day 10 at rate 80. -/
def eH3 : EntryFull := { date := 10, hours := ⟨3, 1⟩, rate := ⟨80, 1⟩ }

/-- Five hours on day 10 at rate 80. -/
def eH5 : EntryFull := { date := 10, hours := ⟨5, 1⟩, rate := ⟨80, 1⟩ }

/-- Two hours on day 40 at rate 80. -/
def eD40 : EntryFull := { date := 40, hours := ⟨2, 1⟩, rate := ⟨80, 1⟩ }

/-- One hour on day 25 at rate 80. -/
def eD25 : EntryFull := { date := 25, hours := ⟨1, 1⟩, rate := ⟨80, 1⟩ }

/-- One hour on day 20 at rate 80. -/
def eD20 : EntryFull := { date := 20, hours := ⟨1, 1⟩, rate := ⟨80, 1⟩ }

/-- One hour on day 50 at rate 80. -/
def eD50 : EntryFull := { date := 50, hours := ⟨1, 1⟩, rate := ⟨80, 1⟩ }

/-- One hour on day 55 at rate 80. -/
def eD55 : EntryFull := { date := 55, hours := ⟨1, 1⟩, rate := ⟨80, 1⟩ }

/-- One hour on day 60 at rate 80. -/
def eD60 : EntryFull := { date := 60, hours := ⟨1, 1⟩, rate := ⟨80, 1⟩ }

/-- A section whose window entries are two 1.5-hour entries, stored after an
out-of-window entry so its body is unsorted. -/
def secSum : Section := [.comm " T".toList, .full eD40, .full eH15, .full eH15]

/-- A fresh section whose single 3-hour entry sum-matches the two 1.5-hour
entries of `secSum`. -/
def newSum : Section := [.comm " T".toList, .full eH3]

/-- A section with a comment in the middle of its body (unsortable). -/
def secCom : Section := [.comm " T".toList, .full eD25, .comm "note".toList]

/-- A fresh section adding one entry to `secCom`. -/
def newCom : Section := [.comm " T".toList, .full eD25, .full eD20]

/-- A section identical to its own update (idempotence input). -/
def secIdem : Section := [.comm " T".toList, .full eH1]

/-- The same section content, freshly derived. -/
def newIdem : Section := [.comm " T".toList, .full eH1]

/-- A second idempotence input. -/
def secIdem2 : Section := [.comm " U".toList, .full eH2]

/-- The same content as `secIdem2`, freshly derived. -/
def newIdem2 : Section := [.comm " U".toList, .full eH2]

/-- First of two sections sharing the title " T". -/
def secDupA : Section := [.comm " T".toList, .full eD50]

/-- Second of two sections sharing the title " T". -/
def secDupB : Section := [.comm " T".toList, .full eD60]

/-- A fresh section with the duplicated title " T". -/
def newDup : Section := [.comm " T".toList, .full eD55]

/-- A section titled " alpha beta". -/
def secAB : Section := [.comm " alpha beta".toList, .full eD50]

/-- A fresh section titled " alpha", an approximate but not exact match of
the title of `secAB`. -/
def newApprox : Section := [.comm " alpha".toList, .full eD50]

/-- An invoice item. -/
def itemA : Item :=
  { desc := "alpha beta".toList
    date := 10
    time := ⟨2, 1⟩
    unit := "heures".toList
    rate := ⟨80, 1⟩
    vat := ⟨0, 1⟩ }

/-- The same item with an approximately matching description. -/
def itemM : Item := { itemA with desc := "alpha beta gamma".toList }

/-- Merge state with a single added entry and exactly one rate-match. -/
def stFix1 : MState := ⟨[(eH2, 1)], [(eH1, 1)], [.comm " T".toList, .full eH1]⟩

/-- Merge state with two rate-matches totalling below the added hours. -/
def stFix2 : MState := ⟨[(eH5, 1)], [(eH1, 2)], [.comm " T".toList, .full eH1, .full eH1]⟩

/-- Merge state with two rate-matches totalling above the added hours. -/
def stFix3 : MState := ⟨[(eH1, 1)], [(eH15, 2)], [.comm " T".toList, .full eH15, .full eH15]⟩

/-- Merge state with two rate-matches totalling exactly the added hours. -/
def stSum1 : MState := ⟨[(eH3, 1)], [(eH15, 2)], [.comm " T".toList, .full eH15, .full eH15]⟩

theorem levR_nil_left (l : List Char) : levR [] l = l.length := by
  cases l <;> simp [levR]

theorem levR_nil_right (l : List Char) : levR l [] = l.length := by
  cases l <;> simp [levR]

theorem levR_cons_cons (c1 c2 : Char) (l1 l2 : List Char) :
    levR (c1 :: l1) (c2 :: l2) =
      min (levR (c1 :: l1) l2 + 1)
        (min (levR l1 (c2 :: l2) + 1) (levR l1 l2 + matchscore c1 c2)) := by
  simp [levR]

theorem matchscore_comm (c1 c2 : Char) : matchscore c1 c2 = matchscore c2 c1 := by
  unfold matchscore
  by_cases h : c1 = c2
  · simp [h]
  · rw [if_neg h, if_neg (fun h2 => h h2.symm)]

theorem matchscore_self (c : Char) : matchscore c c = 0 := by simp [matchscore]

theorem levR_self (l : List Char) : levR l l = 0 := by
  induction l with
  | nil => simp [levR]
  | cons c l ih => rw [levR_cons_cons, ih, matchscore_self]; omega

theorem levR_symm (a : List Char) : ∀ b, levR a b = levR b a := by
  induction a with
  | nil => intro b; cases b <;> simp [levR]
  | cons c1 l1 ih =>
    intro b
    induction b with
    | nil => simp [levR]
    | cons c2 l2 ihb =>
      rw [levR_cons_cons, levR_cons_cons, ihb, ih (c2 :: l2), ih l2, matchscore_comm]
      omega

theorem rowSpec_cons (A B : List Char) (c2 : Char) (rest : List Char) :
    rowSpec A B (c2 :: rest) = levR A B :: rowSpec A (c2 :: B) rest := by
  simp [rowSpec]

theorem rowSpec_head (A B : List Char) (t2 : List Char) :
    ∃ tl, rowSpec A B t2 = levR A B :: tl := by
  cases t2 <;> simp [rowSpec]

theorem levRowAux_spec (c1 : Char) (A : List Char) :
    ∀ (t2 B : List Char),
      levRowAux c1 (levR (c1 :: A) B) t2 (rowSpec A B t2) = (rowSpec (c1 :: A) B t2).tail := by
  intro t2
  induction t2 with
  | nil => intro B; simp [rowSpec, levRowAux]
  | cons c2 rest ih =>
    intro B
    obtain ⟨tl, htl⟩ := rowSpec_head A (c2 :: B) rest
    obtain ⟨tl', htl'⟩ := rowSpec_head (c1 :: A) (c2 :: B) rest
    rw [rowSpec_cons, rowSpec_cons, htl, levRowAux]
    have hv : min (levR (c1 :: A) B + 1)
        (min (levR A (c2 :: B) + 1) (levR A B + matchscore c1 c2)) =
        levR (c1 :: A) (c2 :: B) := (levR_cons_cons c1 c2 A B).symm
    rw [hv, ← htl, ih (c2 :: B), List.tail_cons, htl', List.tail_cons]

theorem rowSpec_head_val (A B : List Char) (t2 : List Char) :
    rowSpec A B t2 = levR A B :: (rowSpec A B t2).tail := by
  obtain ⟨tl, h⟩ := rowSpec_head A B t2
  rw [h, List.tail_cons]

theorem levStep_spec (t : List Char) (R : List Char) (c1 : Char) :
    levStep t (rowSpec R [] t, R.length) c1 = (rowSpec (c1 :: R) [] t, (c1 :: R).length) := by
  have hlen : R.length + 1 = levR (c1 :: R) [] := by
    rw [levR_nil_right]; simp
  unfold levStep
  simp only [List.length_cons]
  rw [Prod.mk.injEq]
  refine ⟨?_, rfl⟩
  rw [hlen, levRowAux_spec c1 R t [], ← rowSpec_head_val]

theorem levFold_spec (t : List Char) :
    ∀ (s1rest R : List Char),
      s1rest.foldl (levStep t) (rowSpec R [] t, R.length) =
        (rowSpec (s1rest.reverse ++ R) [] t, (s1rest.reverse ++ R).length) := by
  intro s1rest
  induction s1rest with
  | nil => intro R; simp
  | cons c1 srest ih =>
    intro R
    rw [List.foldl_cons, levStep_spec, ih (c1 :: R)]
    simp

theorem rowSpec_nil (t : List Char) :
    ∀ B : List Char, rowSpec [] B t = (List.range (t.length + 1)).map (B.length + ·) := by
  induction t with
  | nil => intro B; simp [rowSpec, levR_nil_left, List.range_succ]
  | cons c rest ih =>
    intro B
    have hf : (List.range (rest.length + 1)).map (fun x => (c :: B).length + x) =
        (List.range (rest.length + 1)).map ((fun x => B.length + x) ∘ Nat.succ) :=
      List.map_congr_left (fun a _ => by
        simp only [Function.comp, List.length_cons]
        omega)
    rw [rowSpec_cons, ih (c :: B), levR_nil_left]
    conv_rhs => rw [List.length_cons, List.range_succ_eq_map, List.map_cons, List.map_map]
    rw [hf]
    simp

theorem rowSpec_getLast (A : List Char) :
    ∀ (t2 B : List Char), (rowSpec A B t2).getLastD 0 = levR A (t2.reverse ++ B) := by
  intro t2
  induction t2 with
  | nil => intro B; simp [rowSpec]
  | cons c rest ih =>
    intro B
    obtain ⟨tl, htl⟩ := rowSpec_head A (c :: B) rest
    have hih := ih (c :: B)
    rw [htl, List.getLastD_cons] at hih
    rw [rowSpec_cons, List.getLastD_cons, htl, List.getLastD_cons, hih]
    simp

theorem levenshtein_eq_levR (s1 s2 : List Char) :
    levenshtein s1 s2 = levR s1.reverse s2.reverse := by
  unfold levenshtein
  have h0 : (List.range (s2.length + 1), (0 : Nat)) =
      (rowSpec [] [] s2, ([] : List Char).length) := by
    rw [rowSpec_nil]
    simp
  rw [h0, levFold_spec s2 s1 [], List.append_nil, rowSpec_getLast, List.append_nil]

/-- C8: `edit_distance(s, s) = 0` for every string, and
`edit_distance(a, b) = edit_distance(b, a)` for all strings (the insertion
and deletion costs are both 1 and the substitution cost 2 is symmetric). -/
theorem C8_levenshtein_refl_symm :
    (∀ s : String, levenshtein s.toList s.toList = 0) ∧
      (∀ a b : String, levenshtein a.toList b.toList = levenshtein b.toList a.toList) := by
  constructor
  · intro s; rw [levenshtein_eq_levR, levR_self]
  · intro a b; rw [levenshtein_eq_levR, levenshtein_eq_levR, levR_symm]

/-- C10: the bag score is partial at the public interface: a first string
with no token scores 0 against anything, and a first string with a token
fails (Python `ValueError` from `min` on an empty sequence, embedded as
`none`) whenever the second string has no token. -/
theorem C10_approx_score_domain :
    ∀ s1 s2 : String,
      (tokens s1.toList = [] → approx_score s1.toList s2.toList = some 0) ∧
      (tokens s1.toList ≠ [] → tokens s2.toList = [] →
        approx_score s1.toList s2.toList = none) := by
  intro s1 s2
  constructor
  · intro h
    unfold approx_score
    rw [h]
    rfl
  · intro h1 h2
    rcases hc : tokens s1.toList with _ | ⟨w, ws⟩
    · exact absurd hc h1
    · unfold approx_score
      rw [hc, h2]
      simp [sumMins, minOver]

theorem C10_witness :
    approx_score "".toList "x".toList = some 0 ∧
      approx_score "a".toList " ".toList = none :=
  ⟨(C10_approx_score_domain "" "x").1 (by decide),
   (C10_approx_score_domain "a" " ").2 (by decide) (by decide)⟩

theorem acceptScore_iff (score slen : Nat) (h : 0 < slen) :
    acceptScore score slen = some true ↔ (score : ℚ) / (slen : ℚ) < 1 / 10 := by
  have hq : (0 : ℚ) < (slen : ℚ) := by exact_mod_cast h
  have hiff : (score : ℚ) / (slen : ℚ) < 1 / 10 ↔ 10 * score < slen := by
    rw [div_lt_div_iff₀ hq (by norm_num)]
    constructor
    · intro hx
      have hx' : ((10 * score : ℕ) : ℚ) < ((slen : ℕ) : ℚ) := by push_cast; linarith
      exact_mod_cast hx'
    · intro hx
      have hx' : ((10 * score : ℕ) : ℚ) < ((slen : ℕ) : ℚ) := by exact_mod_cast hx
      push_cast at hx'
      linarith
  unfold acceptScore
  rw [if_neg (Nat.pos_iff_ne_zero.mp h), hiff]
  constructor
  · intro hs
    exact of_decide_eq_true (Option.some_inj.mp hs)
  · intro hs
    rw [decide_eq_true hs]

/-- C6: a caller accepts an approximate match only when the bag score
divided by the length of the reference string is strictly below 0.1: a ratio
of exactly 0.1 is rejected and ratios strictly below 0.1 occur and are
accepted. -/
theorem C6_acceptance_boundary :
    (∀ score slen : Nat, 0 < slen → (score : ℚ) / (slen : ℚ) = 1 / 10 →
      acceptScore score slen = some false) ∧
    (∃ score slen : Nat, 0 < slen ∧ (score : ℚ) / (slen : ℚ) < 1 / 10 ∧
      acceptScore score slen = some true) ∧
    (∀ score slen : Nat, 0 < slen →
      (acceptScore score slen = some true ↔ (score : ℚ) / (slen : ℚ) < 1 / 10)) := by
  refine ⟨?_, ⟨0, 10, by norm_num, by norm_num, by decide⟩, fun s l h => acceptScore_iff s l h⟩
  intro score slen h heq
  have hne : ¬ ((score : ℚ) / (slen : ℚ) < 1 / 10) := by
    rw [heq]
    exact lt_irrefl _
  rw [← acceptScore_iff score slen h] at hne
  unfold acceptScore at hne ⊢
  rw [if_neg (Nat.pos_iff_ne_zero.mp h)] at hne ⊢
  simp only [Option.some_inj] at hne ⊢
  rw [Bool.not_eq_true] at hne
  exact hne

theorem C6_witness : acceptScore 1 10 = some false :=
  C6_acceptance_boundary.1 1 10 (by norm_num) (by norm_num)

theorem approx_match_go_spec (nail : List Char) :
    ∀ (t : List (List Char)) (b : List Char) (sb : Nat),
      approx_score nail b = some sb →
      (∀ x ∈ t, (approx_score nail x).isSome = true) →
      ∃ r, approx_match_go nail b sb t = some r ∧
        (approx_score nail r).getD 0 ≤ sb ∧
        (∀ x ∈ t, (approx_score nail r).getD 0 ≤ (approx_score nail x).getD 0) ∧
        (r = b ∨ ∃ i x, t.get? i = some x ∧ r = x ∧ (approx_score nail r).getD 0 < sb ∧
          ∀ j y, j < i → t.get? j = some y →
            (approx_score nail r).getD 0 < (approx_score nail y).getD 0) := by
  intro t
  induction t with
  | nil =>
    intro b sb hb _
    refine ⟨b, rfl, ?_, by simp, Or.inl rfl⟩
    rw [hb]
    exact le_refl _
  | cons x xs ih =>
    intro b sb hb ht
    obtain ⟨sx, hsx⟩ := Option.isSome_iff_exists.mp (ht x (List.mem_cons_self x xs))
    have ht' : ∀ y ∈ xs, (approx_score nail y).isSome = true :=
      fun y hy => ht y (List.mem_cons_of_mem x hy)
    simp only [approx_match_go]
    rw [hsx]
    dsimp only
    by_cases hlt : sx < sb
    · rw [if_pos hlt]
      obtain ⟨r, hgo, hr1, hr2, hr3⟩ := ih x sx hsx ht'
      refine ⟨r, hgo, by omega, ?_, ?_⟩
      · intro y hy
        rcases List.mem_cons.mp hy with hy | hy
        · subst hy
          rw [hsx]
          simpa using hr1
        · exact hr2 y hy
      · right
        rcases hr3 with hr | ⟨i, z, hiz, hrz, hlt', hfst⟩
        · subst hr
          refine ⟨0, r, rfl, rfl, ?_, ?_⟩
          · rw [hsx] at hr1 ⊢
            simp at hr1 ⊢
            omega
          · intro j y hj _
            omega
        · refine ⟨i + 1, z, by simpa using hiz, hrz, by omega, ?_⟩
          intro j y hj hy
          cases j with
          | zero =>
            simp only [List.get?_cons_zero, Option.some_inj] at hy
            subst hy
            rw [hsx]
            simp
            omega
          | succ j' =>
            simp only [List.get?_cons_succ] at hy
            exact hfst j' y (by omega) hy
    · rw [if_neg hlt]
      obtain ⟨r, hgo, hr1, hr2, hr3⟩ := ih b sb hb ht'
      refine ⟨r, hgo, hr1, ?_, ?_⟩
      · intro y hy
        rcases List.mem_cons.mp hy with hy | hy
        · subst hy
          rw [hsx]
          simp
          omega
        · exact hr2 y hy
      · rcases hr3 with hr | ⟨i, z, hiz, hrz, hlt', hfst⟩
        · exact Or.inl hr
        · right
          refine ⟨i + 1, z, by simpa using hiz, hrz, hlt', ?_⟩
          intro j y hj hy
          cases j with
          | zero =>
            simp only [List.get?_cons_zero, Option.some_inj] at hy
            subst hy
            rw [hsx]
            simp
            omega
          | succ j' =>
            simp only [List.get?_cons_succ] at hy
            exact hfst j' y (by omega) hy

/-- C9: `best_match` returns the candidate with minimal bag score, ties
resolved to the first candidate in iteration order, and fails on an empty
candidate collection (Python raises from `min`; the spec labels this
condition `EmptyCandidateSetError`; it is embedded as `none`). -/
theorem C9_approx_match_spec :
    (∀ nail : List Char, approx_match nail [] = none) ∧
    (∀ (nail : List Char) (l : List (List Char)),
      l ≠ [] → (∀ x ∈ l, (approx_score nail x).isSome = true) →
      ∃ i c, l.get? i = some c ∧ approx_match nail l = some c ∧
        (∀ x ∈ l, (approx_score nail c).getD 0 ≤ (approx_score nail x).getD 0) ∧
        (∀ j y, j < i → l.get? j = some y →
          (approx_score nail c).getD 0 < (approx_score nail y).getD 0)) := by
  constructor
  · intro nail
    rfl
  · intro nail l hne ht
    rcases l with _ | ⟨h, t⟩
    · exact absurd rfl hne
    · obtain ⟨sh, hsh⟩ := Option.isSome_iff_exists.mp (ht h (List.mem_cons_self h t))
      have ht' : ∀ y ∈ t, (approx_score nail y).isSome = true :=
        fun y hy => ht y (List.mem_cons_of_mem h hy)
      obtain ⟨r, hgo, hr1, hr2, hr3⟩ := approx_match_go_spec nail t h sh hsh ht'
      have hmatch : approx_match nail (h :: t) = some r := by
        simp only [approx_match]
        rw [hsh]
        exact hgo
      have hminall : ∀ x ∈ h :: t, (approx_score nail r).getD 0 ≤ (approx_score nail x).getD 0 := by
        intro y hy
        rcases List.mem_cons.mp hy with hy | hy
        · subst hy
          rw [hsh]
          simpa using hr1
        · exact hr2 y hy
      rcases hr3 with hr | ⟨i, z, hiz, hrz, hlt', hfst⟩
      · subst hr
        exact ⟨0, r, rfl, hmatch, hminall, fun j y hj _ => absurd hj (by omega)⟩
      · refine ⟨i + 1, r, by rw [hrz]; simpa using hiz, hmatch, hminall, ?_⟩
        intro j y hj hy
        cases j with
        | zero =>
          simp only [List.get?_cons_zero, Option.some_inj] at hy
          subst hy
          rw [hsh]
          simp
          omega
        | succ j' =>
          simp only [List.get?_cons_succ] at hy
          exact hfst j' y (by omega) hy

theorem C9_witness :
    ∃ i c, ["zz".toList, "ab".toList, "ab".toList].get? i = some c ∧
      approx_match "ab".toList ["zz".toList, "ab".toList, "ab".toList] = some c ∧
      (∀ x ∈ ["zz".toList, "ab".toList, "ab".toList],
        (approx_score "ab".toList c).getD 0 ≤ (approx_score "ab".toList x).getD 0) ∧
      (∀ j y, j < i → ["zz".toList, "ab".toList, "ab".toList].get? j = some y →
        (approx_score "ab".toList c).getD 0 < (approx_score "ab".toList y).getD 0) :=
  C9_approx_match_spec.2 "ab".toList ["zz".toList, "ab".toList, "ab".toList]
    (by decide) (by decide)

theorem Decimal.beq_refl (a : Decimal) : Decimal.beq a a = true := by
  simp [Decimal.beq]

theorem Decimal.beq_symm (a b : Decimal) : Decimal.beq a b = Decimal.beq b a := by
  unfold Decimal.beq
  rw [decide_eq_decide]
  exact eq_comm

theorem Decimal.beq_trans {a b c : Decimal} (h1 : Decimal.beq a b = true)
    (h2 : Decimal.beq b c = true) : Decimal.beq a c = true := by
  unfold Decimal.beq at *
  have e1 := of_decide_eq_true h1
  have e2 := of_decide_eq_true h2
  have hb : ((b.den.val : Int)) ≠ 0 := by
    have := b.den.pos
    omega
  have h3 : a.num * (c.den.val : Int) * (b.den.val : Int) =
      c.num * (a.den.val : Int) * (b.den.val : Int) := by
    linear_combination (c.den.val : Int) * e1 + (a.den.val : Int) * e2
  exact decide_eq_true (mul_right_cancel₀ hb h3)

theorem keyEq_refl (a : EntryFull) : keyEq a a = true := by
  simp [keyEq, Decimal.beq_refl]

theorem keyEq_symm (a b : EntryFull) : keyEq a b = keyEq b a := by
  unfold keyEq
  rw [Decimal.beq_symm a.hours, Decimal.beq_symm a.rate, decide_eq_decide.mpr eq_comm]

theorem keyEq_trans {a b c : EntryFull} (h1 : keyEq a b = true) (h2 : keyEq b c = true) :
    keyEq a c = true := by
  unfold keyEq at *
  simp only [Bool.and_eq_true, decide_eq_true_eq] at *
  exact ⟨⟨h1.1.1.trans h2.1.1, Decimal.beq_trans h1.1.2 h2.1.2⟩,
    Decimal.beq_trans h1.2 h2.2⟩

/-- The number of entries of a list whose key triple equals `k`. -/
def countKey (l : List EntryFull) (k : EntryFull) : Nat :=
  (l.filter (fun x => keyEq k x)).length

theorem cntLookup_nil (k : EntryFull) : cntLookup keyEq [] k = 0 := rfl

theorem cntLookup_cntInc (c : Cnt EntryFull) (x k : EntryFull) :
    cntLookup keyEq (cntInc keyEq c x) k =
      cntLookup keyEq c k + (if keyEq k x then 1 else 0) := by
  induction c with
  | nil =>
    by_cases h : keyEq k x = true
    · simp [cntInc, cntLookup, List.find?, h]
    · simp only [Bool.not_eq_true] at h
      simp [cntInc, cntLookup, List.find?, h]
  | cons p rest ih =>
    by_cases hxp : keyEq x p.1 = true
    · simp only [cntInc, hxp, if_true]
      by_cases hkp : keyEq k p.1 = true
      · have hkx : keyEq k x = true := keyEq_trans hkp ((keyEq_symm x p.1).symm ▸ hxp)
        simp [cntLookup, List.find?, hkp, hkx]
      · have hkx : keyEq k x ≠ true := by
          intro hkx
          exact hkp (keyEq_trans hkx hxp)
        simp only [Bool.not_eq_true] at hkp hkx
        simp [cntLookup, List.find?, hkp, hkx]
    · simp only [cntInc, hxp, if_false, Bool.false_eq_true]
      by_cases hkp : keyEq k p.1 = true
      · have hkx : keyEq k x ≠ true := by
          intro hkx
          exact hxp (keyEq_trans ((keyEq_symm x k).symm ▸ hkx) hkp)
        simp only [Bool.not_eq_true] at hkx
        simp [cntLookup, List.find?, hkp, hkx]
      · simp only [Bool.not_eq_true] at hkp
        simp only [cntLookup, List.find?, hkp] at ih ⊢
        exact ih

theorem countKey_cons (x : EntryFull) (xs : List EntryFull) (k : EntryFull) :
    countKey (x :: xs) k = countKey xs k + (if keyEq k x then 1 else 0) := by
  unfold countKey
  by_cases h : keyEq k x = true
  · simp [List.filter_cons, h]
  · simp only [Bool.not_eq_true] at h
    simp [List.filter_cons, h]

theorem cntLookup_foldl_cntInc :
    ∀ (l : List EntryFull) (c : Cnt EntryFull) (k : EntryFull),
      cntLookup keyEq (l.foldl (cntInc keyEq) c) k =
        cntLookup keyEq c k + (countKey l k : Int) := by
  intro l
  induction l with
  | nil => intro c k; simp [countKey]
  | cons x xs ih =>
    intro c k
    rw [List.foldl_cons, ih (cntInc keyEq c x) k, cntLookup_cntInc, countKey_cons]
    by_cases h : keyEq k x = true
    · simp [h]
      omega
    · simp [h]

theorem cntLookup_counterOf (l : List EntryFull) (k : EntryFull) :
    cntLookup keyEq (counterOf keyEq l) k = (countKey l k : Int) := by
  unfold counterOf
  rw [cntLookup_foldl_cntInc, cntLookup_nil, zero_add]

/-- Well-formedness of a counter: the cell keys are pairwise distinct for
`keyEq`. -/
def CntWF (c : Cnt EntryFull) : Prop :=
  c.Pairwise (fun p q => keyEq p.1 q.1 = false)

theorem mem_cntInc_keys :
    ∀ (c : Cnt EntryFull) (x : EntryFull) (q : EntryFull × Int),
      q ∈ cntInc keyEq c x → (∃ q' ∈ c, q.1 = q'.1) ∨ q = (x, 1) := by
  intro c
  induction c with
  | nil =>
    intro x q hq
    simp [cntInc] at hq
    exact Or.inr hq
  | cons p rest ih =>
    intro x q hq
    by_cases hxp : keyEq x p.1 = true
    · simp only [cntInc, hxp, if_true, List.mem_cons] at hq
      rcases hq with hq | hq
      · exact Or.inl ⟨p, List.mem_cons_self p rest, by rw [hq]⟩
      · exact Or.inl ⟨q, List.mem_cons_of_mem p hq, rfl⟩
    · simp only [cntInc, hxp, Bool.false_eq_true, if_false, List.mem_cons] at hq
      rcases hq with hq | hq
      · exact Or.inl ⟨p, List.mem_cons_self p rest, by rw [hq]⟩
      · rcases ih x q hq with ⟨q', hq', he⟩ | hq'
        · exact Or.inl ⟨q', List.mem_cons_of_mem p hq', he⟩
        · exact Or.inr hq'

theorem cntWF_cntInc (c : Cnt EntryFull) (x : EntryFull) (h : CntWF c) :
    CntWF (cntInc keyEq c x) := by
  induction c with
  | nil =>
    simp [cntInc, CntWF]
  | cons p rest ih =>
    have hp : ∀ q ∈ rest, keyEq p.1 q.1 = false := (List.pairwise_cons.mp h).1
    have hrest : CntWF rest := (List.pairwise_cons.mp h).2
    by_cases hxp : keyEq x p.1 = true
    · simp only [cntInc, hxp, if_true]
      exact List.pairwise_cons.mpr ⟨hp, hrest⟩
    · simp only [cntInc, hxp, Bool.false_eq_true, if_false]
      refine List.pairwise_cons.mpr ⟨?_, ih hrest⟩
      intro q hq
      rcases mem_cntInc_keys rest x q hq with ⟨q', hq', he⟩ | he
      · rw [he]
        exact hp q' hq'
      · rw [he]
        rw [keyEq_symm] at hxp
        simpa using hxp

theorem cntWF_foldl :
    ∀ (l : List EntryFull) (c : Cnt EntryFull), CntWF c → CntWF (l.foldl (cntInc keyEq) c) := by
  intro l
  induction l with
  | nil => intro c h; exact h
  | cons x xs ih => intro c h; exact ih (cntInc keyEq c x) (cntWF_cntInc c x h)

theorem cntWF_counterOf (l : List EntryFull) : CntWF (counterOf keyEq l) :=
  cntWF_foldl l [] (List.Pairwise.nil)

theorem cntLookup_of_mem (c : Cnt EntryFull) (p : EntryFull × Int) (hwf : CntWF c)
    (hm : p ∈ c) : cntLookup keyEq c p.1 = p.2 := by
  induction c with
  | nil => cases hm
  | cons q rest ih =>
    have hq : ∀ r ∈ rest, keyEq q.1 r.1 = false := (List.pairwise_cons.mp hwf).1
    have hrest : CntWF rest := (List.pairwise_cons.mp hwf).2
    rcases List.mem_cons.mp hm with hm | hm
    · subst hm
      simp [cntLookup, List.find?, keyEq_refl]
    · have hne : keyEq p.1 q.1 = false := by
        rw [keyEq_symm]
        exact hq p hm
      simp only [cntLookup, List.find?, hne]
      exact ih hrest hm

theorem mem_counterOf_count (l : List EntryFull) (p : EntryFull × Int)
    (hm : p ∈ counterOf keyEq l) : p.2 = (countKey l p.1 : Int) := by
  rw [← cntLookup_counterOf l p.1]
  exact (cntLookup_of_mem (counterOf keyEq l) p (cntWF_counterOf l) hm).symm

theorem cntSub_counterOf_eq_nil (l1 l2 : List EntryFull)
    (h : ∀ k, countKey l1 k = countKey l2 k) :
    cntSub keyEq (counterOf keyEq l1) (counterOf keyEq l2) = [] := by
  unfold cntSub
  rw [List.filterMap_eq_nil_iff]
  intro p hp
  have hc : p.2 = (countKey l1 p.1 : Int) := mem_counterOf_count l1 p hp
  have hl : cntLookup keyEq (counterOf keyEq l2) p.1 = (countKey l2 p.1 : Int) :=
    cntLookup_counterOf l2 p.1
  rw [if_neg]
  rw [hc, hl, h p.1]
  omega

theorem runAddedPass_nil_added (body : EntryFull → MState → MState) (st : MState)
    (h : st.added = []) : runAddedPass body st = st := by
  unfold runAddedPass
  rw [h]
  rfl

theorem runAddedPass_single (body : EntryFull → MState → MState) (st : MState)
    (a : EntryFull) (h : st.added = [(a, 1)]) : runAddedPass body st = body a st := by
  unfold runAddedPass
  rw [h]
  simp [passAux, repAt, h]

theorem cascade_nil_added (st : MState) (h : st.added = []) : cascade st = st := by
  unfold cascade
  rw [runAddedPass_nil_added sumMatchBody st h, runAddedPass_nil_added fixBody st h,
    runAddedPass_nil_added rateMismatchBody st h]

theorem update_course_no_diff (wf : Workfile) (newsec : Section) (icsstart icsend : Int)
    (i : Nat) (sec : Section)
    (hidx : filteredIdx wf (sectionTitle newsec) (icsstart - 92) (icsend + 92) = [i])
    (hsec : wf.get? i = some sec)
    (hadd : (initialState sec newsec (max icsstart (icsstart - 92))
      (min icsend (icsend + 92))).added = [])
    (hrem : (initialState sec newsec (max icsstart (icsstart - 92))
      (min icsend (icsend + 92))).removed = []) :
    update_course wf newsec icsstart icsend = wf := by
  unfold update_course
  rw [hidx]
  rw [if_neg (by simp)]
  show mergeSection wf newsec icsstart icsend i = wf
  have hc : cascadeOf wf newsec icsstart icsend i =
      initialState sec newsec (max icsstart (icsstart - 92)) (min icsend (icsend + 92)) := by
    unfold cascadeOf
    rw [hsec, Option.getD_some, cascade_nil_added _ hadd]
  unfold mergeSection
  rw [hc, hadd, hrem]
  rfl

/-- C7: reconciling a workfile against a `newSection` whose dated entries
are identical, as a multiset keyed by (date, quantity, rate), to the current
entries of the unique matching target section restricted to the update
window, produces empty added and removed difference counters and leaves the
workfile, entry order included, untouched. -/
theorem C7_idempotent_reconciliation :
    ∀ (wf : Workfile) (newsec : Section) (icsstart icsend : Int) (i : Nat) (sec : Section),
      filteredIdx wf (sectionTitle newsec) (icsstart - 92) (icsend + 92) = [i] →
      wf.get? i = some sec →
      (∀ k, countKey (fullEntries newsec) k =
        countKey (windowEntries sec (max icsstart (icsstart - 92)) (min icsend (icsend + 92))) k) →
      (initialState sec newsec (max icsstart (icsstart - 92))
        (min icsend (icsend + 92))).added = [] ∧
      (initialState sec newsec (max icsstart (icsstart - 92))
        (min icsend (icsend + 92))).removed = [] ∧
      update_course wf newsec icsstart icsend = wf := by
  intro wf newsec icsstart icsend i sec hidx hsec hcnt
  have hadd : (initialState sec newsec (max icsstart (icsstart - 92))
      (min icsend (icsend + 92))).added = [] := by
    simp only [initialState]
    exact cntSub_counterOf_eq_nil _ _ hcnt
  have hrem : (initialState sec newsec (max icsstart (icsstart - 92))
      (min icsend (icsend + 92))).removed = [] := by
    simp only [initialState]
    exact cntSub_counterOf_eq_nil _ _ (fun k => (hcnt k).symm)
  exact ⟨hadd, hrem, update_course_no_diff wf newsec icsstart icsend i sec hidx hsec hadd hrem⟩

theorem C7_witness :
    (initialState secIdem newIdem (max 0 (0 - 92)) (min 30 (30 + 92))).added = [] ∧
    (initialState secIdem newIdem (max 0 (0 - 92)) (min 30 (30 + 92))).removed = [] ∧
    update_course [secIdem] newIdem 0 30 = [secIdem] :=
  C7_idempotent_reconciliation [secIdem] newIdem 0 30 0 secIdem (by decide) (by decide)
    (fun k => rfl)

/-- C2 counterexample: after the cascade both net difference multisets are
empty (every count is zero, so `Counter.elements()` is empty on both sides),
yet the section is not left untouched: the zero-count keys keep the Python
counters dict-non-empty, the final emptiness test fails, and the section is
re-sorted, changing its entry order. -/
theorem C2_counterexample :
    cntElements (cascadeOf [secSum] newSum 0 30 0).added = [] ∧
    cntElements (cascadeOf [secSum] newSum 0 30 0).removed = [] ∧
    update_course [secSum] newSum 0 30 ≠ [secSum] ∧
    update_course [secSum] newSum 0 30 =
      [[.comm " T".toList, .full eH15, .full eH15, .full eD40]] := by
  decide

/-- C2 (amended): the target section is left untouched (order included)
exactly when the step-2 diff itself is empty on both sides; the code tests
dict emptiness of the counters, so a cascade that merely drives every count
to zero still re-sorts the dated entries (second conjunct: the sum-match
scenario reorders the section); when the section mixes comment entries after
its title block the sort error is caught and the section keeps its current,
unsorted order (third conjunct). -/
theorem C2_final_step :
    (∀ (wf : Workfile) (newsec : Section) (icsstart icsend : Int) (i : Nat) (sec : Section),
      filteredIdx wf (sectionTitle newsec) (icsstart - 92) (icsend + 92) = [i] →
      wf.get? i = some sec →
      (initialState sec newsec (max icsstart (icsstart - 92))
        (min icsend (icsend + 92))).added = [] →
      (initialState sec newsec (max icsstart (icsstart - 92))
        (min icsend (icsend + 92))).removed = [] →
      update_course wf newsec icsstart icsend = wf) ∧
    update_course [secSum] newSum 0 30 =
      [[.comm " T".toList, .full eH15, .full eH15, .full eD40]] ∧
    update_course [secCom] newCom 0 30 =
      [[.comm " T".toList, .full eD25, .comm "note".toList, .full eD20]] :=
  ⟨update_course_no_diff, by decide, by decide⟩

theorem C2_witness : update_course [secIdem2] newIdem2 0 30 = [secIdem2] :=
  C2_final_step.1 [secIdem2] newIdem2 0 30 0 secIdem2 (by decide) (by decide)
    (by decide) (by decide)

/-- C1 counterexample: with two sections of the recent window sharing the
exact title "T", the invoice section lookup does not refuse: it proceeds
and returns the last duplicate. -/
theorem C1_counterexample :
    (filter_sections [secDupA, secDupB] 100 (some "T".toList)).length = 2 ∧
    find_section [secDupA, secDupB] 100 "T".toList = .ok secDupB := by
  decide

/-- C1 (amended): only the ledger flavor refuses on an ambiguous exact
title — `update_course` returns the workfile unchanged when more than one
section matches the widened window — while the invoice locator
`find_section` logs a warning and returns the last matching section, so its
update proceeds on one of the duplicates. -/
theorem C1_ambiguity_behavior :
    (∀ (wf : Workfile) (newsec : Section) (icsstart icsend : Int),
      1 < (filteredIdx wf (sectionTitle newsec) (icsstart - 92) (icsend + 92)).length →
      update_course wf newsec icsstart icsend = wf) ∧
    (∀ (wf : Workfile) (today : Int) (title : List Char) (i j : Nat) (rest : List Nat),
      filter_sections wf today (some title) = i :: j :: rest →
      find_section wf today title =
        .ok ((wf.get? ((i :: j :: rest).getLastD 0)).getD [])) := by
  constructor
  · intro wf newsec icsstart icsend h
    unfold update_course
    rw [if_pos h]
  · intro wf today title i j rest h
    unfold find_section
    rw [h]

theorem C1_witness :
    update_course [secDupA, secDupB] newDup 0 100 = [secDupA, secDupB] ∧
    find_section [secDupA, secDupB] 100 "T".toList =
      .ok (([secDupA, secDupB].get? ((0 :: 1 :: ([] : List Nat)).getLastD 0)).getD []) :=
  ⟨C1_ambiguity_behavior.1 [secDupA, secDupB] newDup 0 100 (by decide),
   C1_ambiguity_behavior.2 [secDupA, secDupB] 100 "T".toList 0 1 [] (by decide)⟩

/-- C4 counterexample: with zero exact-title matches, the ledger flavor
never invokes the approximate matcher: even though the title of the
in-window section passes the acceptance threshold against the new title
(bag score 0 against an 11-character reference), `update_course` appends
the new section as a duplicate instead of reconciling into the approximate
match. -/
theorem C4_counterexample :
    update_course [secAB] newApprox 40 70 = [secAB] ++ [newApprox] ∧
    approx_score " alpha".toList " alpha beta".toList = some 0 ∧
    acceptScore 0 (" alpha beta".toList.length) = some true := by
  decide

/-- C4 (amended): only the invoice lookup (`find_section`) performs the
approximate fallback — rebuilding the window view without the title filter,
collecting the titles, running the best match and accepting it under the
0.1 threshold, otherwise failing with `SectionNameError` — while the ledger
flavor (`update_course`), on zero exact matches, appends the new section
directly without attempting approximate matching. -/
theorem C4_zero_match_behavior :
    (∀ (wf : Workfile) (newsec : Section) (icsstart icsend : Int),
      filteredIdx wf (sectionTitle newsec) (icsstart - 92) (icsend + 92) = [] →
      update_course wf newsec icsstart icsend = wf ++ [newsec]) ∧
    find_section [secAB] 100 "alpha".toList = .ok secAB ∧
    find_section [secAB] 100 "zzz".toList = .error "SectionNameError" := by
  refine ⟨?_, by decide, by decide⟩
  intro wf newsec icsstart icsend h
  unfold update_course
  rw [h]
  rfl

theorem C4_witness : update_course [] newIdem 0 30 = [] ++ [newIdem] :=
  C4_zero_match_behavior.1 [] newIdem 0 30 (by decide)

theorem Decimal.blt_asymm {a b : Decimal} (h : Decimal.blt a b = true) :
    Decimal.blt b a = false := by
  unfold Decimal.blt at *
  have h' := of_decide_eq_true h
  exact decide_eq_false (by omega)

theorem setHoursFirstMatch_spec (m : EntryFull) (h : Decimal) :
    ∀ (es : Section) (j : Nat) (e : EntryFull),
      es.get? j = some (.full e) → keyEq e m = true →
      (∀ j' e', j' < j → es.get? j' = some (.full e') → keyEq e' m = false) →
      setHoursFirstMatch m h es = es.set j (.full { e with hours := h }) := by
  intro es
  induction es with
  | nil =>
    intro j e hj
    simp at hj
  | cons x rest ih =>
    intro j e hj hk hfst
    cases j with
    | zero =>
      simp only [List.get?_cons_zero, Option.some_inj] at hj
      subst hj
      simp [setHoursFirstMatch, hk]
    | succ j' =>
      have hrec : setHoursFirstMatch m h rest = rest.set j' (.full { e with hours := h }) := by
        refine ih j' e (by simpa using hj) hk ?_
        intro j'' e' hj'' hg
        exact hfst (j'' + 1) e' (by omega) (by simpa using hg)
      cases x with
      | comm s =>
        simp [setHoursFirstMatch, hrec]
      | full f =>
        have hf : keyEq f m = false := hfst 0 f (Nat.succ_pos j') rfl
        simp [setHoursFirstMatch, hf, hrec]

/-- C5: the three branches of the ledger partial-fix pass, on a state whose
added counter holds a single entry.  A single rate-match: both sides are
consumed and the matched target entry has its hours overwritten in place —
the fourth conjunct states that the rewritten entry keeps its list position
and all its other fields (annotation included).  Several rate-matches
totalling below the added hours: all are consumed and one entry carrying
the shortfall (date and rate of the added entry) is appended.  Several
rate-matches totalling above the added hours: nothing changes and the entry
falls through to the later passes. -/
theorem C5_partial_fix :
    (∀ (st : MState) (a m : EntryFull),
      st.added = [(a, 1)] →
      (entry_matches a st.removed).2.2 = [m] →
      runAddedPass fixBody st =
        { added := cntDecr keyEq st.added a
          removed := cntDecr keyEq st.removed m
          entries := setHoursFirstMatch m a.hours st.entries }) ∧
    (∀ (st : MState) (a : EntryFull),
      st.added = [(a, 1)] →
      1 < (entry_matches a st.removed).2.2.length →
      Decimal.blt (Decimal.dsum (((entry_matches a st.removed).2.2).map (·.hours))) a.hours
          = true →
      runAddedPass fixBody st =
        { added := cntSetHours (cntDecr keyEq st.added a) a
            (Decimal.sub a.hours
              (Decimal.dsum (((entry_matches a st.removed).2.2).map (·.hours))))
          removed := ((entry_matches a st.removed).2.2).foldl (cntDecr keyEq) st.removed
          entries := st.entries ++ [.full { a with hours := Decimal.sub a.hours (Decimal.dsum (((entry_matches a st.removed).2.2).map (·.hours))) }] }) ∧
    (∀ (st : MState) (a : EntryFull),
      st.added = [(a, 1)] →
      1 < (entry_matches a st.removed).2.2.length →
      Decimal.blt a.hours (Decimal.dsum (((entry_matches a st.removed).2.2).map (·.hours)))
          = true →
      runAddedPass fixBody st = st) ∧
    (∀ (m : EntryFull) (h : Decimal) (es : Section) (j : Nat) (e : EntryFull),
      es.get? j = some (.full e) → keyEq e m = true →
      (∀ j' e', j' < j → es.get? j' = some (.full e') → keyEq e' m = false) →
      setHoursFirstMatch m h es = es.set j (.full { e with hours := h })) := by
  refine ⟨?_, ?_, ?_, setHoursFirstMatch_spec⟩
  · intro st a m h1 hdrm
    rw [runAddedPass_single fixBody st a h1]
    unfold fixBody
    rw [hdrm]
  · intro st a h1 hlen hblt
    rcases hd : (entry_matches a st.removed).2.2 with _ | ⟨m1, _ | ⟨m2, rest⟩⟩
    · rw [hd] at hlen
      simp at hlen
    · rw [hd] at hlen
      simp at hlen
    · rw [hd] at hblt
      rw [runAddedPass_single fixBody st a h1]
      simp only [fixBody, hd]
      have hcond : (decide (1 < (m1 :: m2 :: rest).length) &&
          Decimal.blt (Decimal.dsum ((m1 :: m2 :: rest).map (·.hours))) a.hours) = true := by
        rw [Bool.and_eq_true]
        exact ⟨decide_eq_true (by simp), hblt⟩
      rw [if_pos hcond]
  · intro st a h1 hlen hblt
    rcases hd : (entry_matches a st.removed).2.2 with _ | ⟨m1, _ | ⟨m2, rest⟩⟩
    · rw [hd] at hlen
      simp at hlen
    · rw [hd] at hlen
      simp at hlen
    · rw [hd] at hblt
      rw [runAddedPass_single fixBody st a h1]
      simp only [fixBody, hd]
      have hcond : ¬ ((decide (1 < (m1 :: m2 :: rest).length) &&
          Decimal.blt (Decimal.dsum ((m1 :: m2 :: rest).map (·.hours))) a.hours) = true) := by
        rw [Decimal.blt_asymm hblt]
        simp
      rw [if_neg hcond]

theorem C5_witness :
    runAddedPass fixBody stFix1 =
      { added := cntDecr keyEq stFix1.added eH2
        removed := cntDecr keyEq stFix1.removed eH1
        entries := setHoursFirstMatch eH1 eH2.hours stFix1.entries } ∧
    runAddedPass fixBody stFix3 = stFix3 ∧
    setHoursFirstMatch eH1 eH2.hours [.comm " T".toList, .full eH1] =
      [.comm " T".toList, .full eH1].set 1 (.full { eH1 with hours := eH2.hours }) :=
  ⟨C5_partial_fix.1 stFix1 eH2 eH1 (by decide) (by decide),
   C5_partial_fix.2.2.1 stFix3 eH1 (by decide) (by decide) (by decide),
   C5_partial_fix.2.2.2 eH1 eH2.hours [.comm " T".toList, .full eH1] 1 eH1
     (by decide) (by decide)
     (fun j' e' hj' hg => by
       have hj0 : j' = 0 := by omega
       subst hj0
       simp at hg)⟩

theorem invoice_pass_single
    (body : Item → Cnt Item × Cnt Item → Option (Cnt Item × Cnt Item))
    (added removed : Cnt Item) (a : Item) (h : added = [(a, 1)]) :
    passAuxI body 0 added.length (added, removed) = body a (added, removed) := by
  rw [h]
  simp [passAuxI, repAtI, h]

/-- C3 corrected: the ledger sum-match pass consumes an added entry with its
rate-matches exactly when there are two or more of them and their hours sum
to the added entry's hours (first two conjuncts); the invoice flavor of the
pass, however, has no two-or-more condition: it consumes whenever the total
time of the matches equals the added item's time, also for a single match
(third conjunct, with no constraint on the match count). -/
theorem C3_sum_match :
    (∀ (st : MState) (a : EntryFull),
      st.added = [(a, 1)] →
      Decimal.beq (Decimal.dsum (((entry_matches a st.removed).2.2).map (·.hours))) a.hours
          = true →
      1 < (entry_matches a st.removed).2.2.length →
      runAddedPass sumMatchBody st =
        { st with
          removed := ((entry_matches a st.removed).2.2).foldl (cntDecr keyEq) st.removed
          added := cntDecr keyEq st.added a }) ∧
    (∀ (st : MState) (a : EntryFull),
      st.added = [(a, 1)] →
      ¬ (Decimal.beq (Decimal.dsum (((entry_matches a st.removed).2.2).map (·.hours))) a.hours
          = true ∧ 1 < (entry_matches a st.removed).2.2.length) →
      runAddedPass sumMatchBody st = st) ∧
    (∀ (added removed : Cnt Item) (a : Item) (ms : List Item),
      added = [(a, 1)] →
      match_items_timeF a (cntElements removed) = some ms →
      Decimal.beq (Decimal.dsum (ms.map (·.time))) a.time = true →
      update_invoice_ignore_sum_match added removed =
        some (cntDecr itemEq added a, ms.foldl (cntDecr itemEq) removed)) := by
  refine ⟨?_, ?_, ?_⟩
  · intro st a h1 hbeq hlen
    rw [runAddedPass_single sumMatchBody st a h1]
    unfold sumMatchBody
    rw [if_pos]
    rw [Bool.and_eq_true]
    exact ⟨hbeq, decide_eq_true hlen⟩
  · intro st a h1 hno
    rw [runAddedPass_single sumMatchBody st a h1]
    unfold sumMatchBody
    rw [if_neg]
    rw [Bool.and_eq_true]
    rintro ⟨hb, hd⟩
    exact hno ⟨hb, of_decide_eq_true hd⟩
  · intro added removed a ms h1 hms hbeq
    unfold update_invoice_ignore_sum_match
    rw [invoice_pass_single ignoreSumMatchBody added removed a h1, h1]
    unfold ignoreSumMatchBody
    rw [hms]
    rw [Option.bind_eq_bind, Option.some_bind]
    rw [if_pos hbeq]
    rfl

theorem C3_counterexample :
    match_items_timeF itemA (cntElements [(itemM, 1)]) = some [itemM] ∧
    update_invoice_ignore_sum_match [(itemA, 1)] [(itemM, 1)] =
      some ([(itemA, 0)], [(itemM, 0)]) := by
  decide

theorem C3_witness :
    runAddedPass sumMatchBody stSum1 =
      { stSum1 with
        removed := ((entry_matches eH3 stSum1.removed).2.2).foldl (cntDecr keyEq)
          stSum1.removed
        added := cntDecr keyEq stSum1.added eH3 } ∧
    update_invoice_ignore_sum_match [(itemA, 1)] [(itemM, 1)] =
      some (cntDecr itemEq [(itemA, 1)] itemA, [itemM].foldl (cntDecr itemEq) [(itemM, 1)]) :=
  ⟨C3_sum_match.1 stSum1 eH3 (by decide) (by decide) (by decide),
   C3_sum_match.2.2 [(itemA, 1)] [(itemM, 1)] itemA [itemM] (by decide) (by decide)
     (by decide)⟩

end Wci
